import Mathlib

/-!
Verification of the DNA sequencing algorithms notebook
(`src/DNA_seq_algorithms.ipynb`).

Sequences are embedded as `List Char`; 0-based offsets as `Nat`.
Python's `range(len(t) - len(p) + 1)` is embedded as
`List.range (t.length + 1 - p.length)`: for `p.length > t.length` the
Python range is empty and the truncated `Nat` subtraction also yields an
empty range, so the two agree at every input.

The notebook imports `BoyerMoore` and `Index_objects` from modules that are
not part of the repository snapshot, and the `boyer_moore_exact_matching`
cell is cut off mid-function; those parts are modelled from the spec, each
with a doc comment saying so.
-/

/-- Error kinds raised by the notebook code: Python's generic `Exception`
(used by `approximate_matching` for an unrecognized method) and `KeyError`
(raised by a dict lookup on a missing key, e.g. `complement[base]` in
`reverseComplement` for a symbol outside the alphabet).  The structured
`UnsupportedMethod` kind named by the spec (§7) is included so that
statements can distinguish it from the generic exception the code
actually raises. -/
inductive PyExc where
  | Exception (msg : String)
  | KeyError (key : String)
  | UnsupportedMethod (method : String)
deriving DecidableEq, Repr

/-- Number of mismatching positions `j` with `lo ≤ j < hi` between
`pattern[j]` and `text[a + j]`.  This is the character-by-character
mismatch count used (over various index windows) throughout the
notebook's matchers; the default character is never consulted at
in-bounds indices. -/
def mmRange (p t : List Char) (a lo hi : Nat) : Nat :=
  ((List.range' lo (hi - lo)).filter
    (fun j => p.getD j ' ' != t.getD (a + j) ' ')).length

/-- Total number of mismatches of `p` laid contiguously on `t` at
alignment offset `a`. -/
def countMM (p t : List Char) (a : Nat) : Nat :=
  mmRange p t a 0 p.length

/-- Cell 5, `naive_exact(p, t)`: brute-force exact matching; for each
alignment `i` the inner loop over `j` checks `t[i+j] == p[j]` (the break
on the first mismatch does not change the resulting boolean). -/
def naive_exact (p t : List Char) : List Nat :=
  (List.range (t.length + 1 - p.length)).filter
    (fun i => (List.range p.length).all
      (fun j => p.getD j ' ' == t.getD (i + j) ' '))

/-- Cell 5, `naive_n_mm(p, t, n)`: brute-force matching allowing up to `n`
mismatches; an alignment is recorded iff its mismatch count never exceeds
`n` (the break once `mm > n` only short-circuits the count and does not
change which offsets are recorded). -/
def naive_n_mm (p t : List Char) (n : Nat) : List Nat :=
  (List.range (t.length + 1 - p.length)).filter
    (fun i => decide (countMM p t i ≤ n))

/-- Cell 2: the `complement` dict `{A: T, C: G, G: C, T: A, N: N}`;
`none` models the `KeyError` a Python dict raises on any other key. -/
def complementChar (c : Char) : Option Char :=
  if c = 'A' then some 'T'
  else if c = 'C' then some 'G'
  else if c = 'G' then some 'C'
  else if c = 'T' then some 'A'
  else if c = 'N' then some 'N'
  else none

/-- Cell 2, `reverseComplement(s)`: starts from the empty string and
prepends `complement[base]` for each base in order, so the result is the
reversed complement; a base outside the dict raises `KeyError`. -/
def reverseComplement (s : List Char) : Except PyExc (List Char) :=
  s.foldlM
    (fun t base =>
      match complementChar base with
      | some cb => Except.ok (cb :: t)
      | none => Except.error (PyExc.KeyError (String.mk [base])))
    []

/-- The five symbols of the DNA alphabet handled by the notebook. -/
def validBase (c : Char) : Bool :=
  c == 'A' || c == 'C' || c == 'G' || c == 'T' || c == 'N'

section NaiveLemmas

/-- Membership in a `List.range`-over-alignments filter forces the
alignment to fit inside the text. -/
theorem mem_range_align {p t : List Char} {o : Nat}
    (h : o ∈ List.range (t.length + 1 - p.length)) :
    o + p.length ≤ t.length := by
  have h' := List.mem_range.mp h
  omega

theorem take_drop_eq_of_pointwise {p t : List Char} {o : Nat}
    (hlen : o + p.length ≤ t.length)
    (h : ∀ j, j < p.length → p.getD j ' ' = t.getD (o + j) ' ') :
    (t.drop o).take p.length = p := by
  apply List.ext_getElem
  · rw [List.length_take, List.length_drop]
    omega
  · intro j hj₁ hj₂
    rw [List.length_take, List.length_drop] at hj₁
    have hjp : j < p.length := by omega
    have hjt : o + j < t.length := by omega
    have := h j hjp
    rw [List.getD_eq_getElem p ' ' hjp, List.getD_eq_getElem t ' ' hjt] at this
    rw [List.getElem_take, List.getElem_drop]
    exact this.symm

end NaiveLemmas

/-- C3: every offset `o` reported by `naive_exact(p, t)` satisfies
`t[o : o + len(p)] == p`, i.e. the pattern occurs verbatim there. -/
theorem naive_exact_sound (p t : List Char) (o : Nat)
    (h : o ∈ naive_exact p t) :
    (t.drop o).take p.length = p := by
  unfold naive_exact at h
  rw [List.mem_filter] at h
  obtain ⟨hr, hall⟩ := h
  have hlen := mem_range_align hr
  apply take_drop_eq_of_pointwise hlen
  intro j hj
  have := List.all_eq_true.mp hall j (List.mem_range.mpr hj)
  exact of_decide_eq_true (by simpa using this)

theorem naive_exact_sound_witness :
    1 ∈ naive_exact ['A'] ['B', 'A'] ∧
      ((['B', 'A'] : List Char).drop 1).take 1 = ['A'] :=
  ⟨by decide, naive_exact_sound ['A'] ['B', 'A'] 1 (by decide)⟩

section ReverseComplementLemmas

/-- Total version of the complement map, used only to state what
`reverseComplement` computes on alphabet-valid input. -/
def complBase (c : Char) : Char :=
  (complementChar c).getD c

theorem complementChar_eq_some_compl {c : Char} (h : validBase c = true) :
    complementChar c = some (complBase c) := by
  unfold validBase at h
  simp only [Bool.or_eq_true, beq_iff_eq] at h
  rcases h with ((((h | h) | h) | h) | h) <;> subst h <;> rfl

theorem validBase_compl {c : Char} (h : validBase c = true) :
    validBase (complBase c) = true := by
  unfold validBase at h
  simp only [Bool.or_eq_true, beq_iff_eq] at h
  rcases h with ((((h | h) | h) | h) | h) <;> subst h <;> rfl

theorem complBase_complBase {c : Char} (h : validBase c = true) :
    complBase (complBase c) = c := by
  unfold validBase at h
  simp only [Bool.or_eq_true, beq_iff_eq] at h
  rcases h with ((((h | h) | h) | h) | h) <;> subst h <;> rfl

theorem reverseComplement_fold (s : List Char) :
    ∀ acc : List Char, s.all validBase = true →
      (s.foldlM
        (fun t base =>
          match complementChar base with
          | some cb => Except.ok (cb :: t)
          | none => Except.error (PyExc.KeyError (String.mk [base])))
        acc : Except PyExc (List Char)) =
        Except.ok ((s.map complBase).reverse ++ acc) := by
  induction s with
  | nil => intro acc _; rfl
  | cons c s ih =>
    intro acc hall
    rw [List.all_cons, Bool.and_eq_true] at hall
    rw [List.foldlM_cons, complementChar_eq_some_compl hall.1]
    show (s.foldlM _ (complBase c :: acc) : Except PyExc (List Char)) = _
    rw [ih (complBase c :: acc) hall.2]
    simp

theorem reverseComplement_eq_ok {s : List Char} (h : s.all validBase = true) :
    reverseComplement s = Except.ok ((s.map complBase).reverse) := by
  unfold reverseComplement
  rw [reverseComplement_fold s [] h, List.append_nil]

end ReverseComplementLemmas

/-- C9: on sequences over the alphabet set containing A, C, G, T and N,
`reverseComplement` succeeds and is an involution:
`reverseComplement(reverseComplement(s)) == s`. -/
theorem reverseComplement_involution (s : List Char)
    (h : s.all validBase = true) :
    Except.bind (reverseComplement s) reverseComplement = Except.ok s := by
  rw [reverseComplement_eq_ok h]
  show reverseComplement ((s.map complBase).reverse) = Except.ok s
  have hval : ((s.map complBase).reverse).all validBase = true := by
    rw [List.all_eq_true]
    intro c hc
    rw [List.mem_reverse, List.mem_map] at hc
    obtain ⟨c', hc', rfl⟩ := hc
    exact validBase_compl (List.all_eq_true.mp h c' hc')
  rw [reverseComplement_eq_ok hval]
  congr 1
  rw [List.map_reverse, List.reverse_reverse, List.map_map, Function.comp_def]
  rw [List.map_congr_left (fun c hc => complBase_complBase (List.all_eq_true.mp h c hc)),
    List.map_id']

theorem reverseComplement_involution_witness :
    (['A', 'C', 'G', 'T', 'N'] : List Char).all validBase = true ∧
      Except.bind (reverseComplement ['A', 'C', 'G', 'T', 'N'])
        reverseComplement = Except.ok ['A', 'C', 'G', 'T', 'N'] :=
  ⟨by decide, reverseComplement_involution ['A', 'C', 'G', 'T', 'N'] (by decide)⟩

/-- C10: with a zero mismatch budget the naive n-mismatch matcher returns
exactly the same offset list as the naive exact matcher. -/
theorem naive_n_mm_zero_eq_naive_exact (p t : List Char) :
    naive_n_mm p t 0 = naive_exact p t := by
  unfold naive_n_mm naive_exact
  apply List.filter_congr
  intro i _
  rw [Bool.eq_iff_iff, decide_eq_true_eq, Nat.le_zero]
  unfold countMM mmRange
  rw [List.length_eq_zero, List.filter_eq_nil_iff, List.all_eq_true]
  constructor
  · intro hnone j hj
    have := hnone j (by simpa [List.range_eq_range'] using hj)
    simpa using this
  · intro hall j hj
    have := hall j (by simpa [List.range_eq_range'] using hj)
    simpa using this

section OverlapDefs

/-- Python's `a.find(needle, start)` (as used by `overlap` in cell 13):
the least offset `s ≥ start` at which `needle` occurs in full inside `a`
(`s + len(needle) ≤ len(a)`), or `none` for Python's `-1`. -/
def find_from (a nd : List Char) (start : Nat) : Option Nat :=
  ((List.range' start (a.length + 1 - nd.length - start)).filter
    (fun s => (a.drop s).take nd.length == nd)).head?

/-- The `while True` loop of `overlap` (cell 13): repeatedly `find` the
next occurrence of `b[:min_length]` in `a` from `start` on; at the first
occurrence with `b.startswith(a[start:])` return `len(a) - start`, and
return 0 once `find` fails.  Each iteration strictly increases `start`,
which never exceeds `len(a)`, so `len(a) + 1` iterations always suffice;
the structural `fuel` argument carries that bound (the `fuel = 0` branch
is unreachable from `overlap`). -/
def overlap_loop (a b : List Char) (m : Nat) : Nat → Nat → Nat
  | 0, _ => 0
  | fuel + 1, start =>
    match find_from a (b.take m) start with
    | none => 0
    | some s =>
      if (a.drop s).isPrefixOf b then a.length - s
      else overlap_loop a b m fuel (s + 1)

/-- Cell 13, `overlap(a, b, min_length)`: length of the longest suffix of
`a` matching a prefix of `b`, subject to the occurrence scan described in
`overlap_loop`. -/
def overlap (a b : List Char) (m : Nat) : Nat :=
  overlap_loop a b m (a.length + 1) 0

/-- Length of the longest suffix of `a` that is a prefix of `b`, with no
minimum-length constraint.  This is the spec's description of the value
`overlap` is claimed to compute; it is compared against the code's
`overlap` in the theorems below. -/
def longestSuffixPrefixLen (a b : List Char) : Nat :=
  ((List.range (a.length + 1)).filter
    (fun o => (a.drop (a.length - o)).isPrefixOf b)).foldr max 0

/-- A position `s` in `a` at which the `overlap` loop stops: the needle
`b[:m]` occurs at `s` and the suffix `a[s:]` is a prefix of `b`. -/
def overlapHit (a b : List Char) (m s : Nat) : Prop :=
  s + (b.take m).length ≤ a.length ∧
    (a.drop s).take (b.take m).length = b.take m ∧
    (a.drop s) <+: b

end OverlapDefs

section OverlapLemmas

theorem head?_filter_range'_none {p : Nat → Bool} {s c : Nat}
    (h : ((List.range' s c).filter p).head? = none) :
    ∀ y, s ≤ y → y < s + c → p y = false := by
  induction c generalizing s with
  | zero => intro y h₁ h₂; omega
  | succ c ih =>
    rw [List.range'_succ, List.filter_cons] at h
    by_cases hp : p s
    · simp [hp] at h
    · intro y h₁ h₂
      rcases Nat.eq_or_lt_of_le h₁ with rfl | hlt
      · exact Bool.of_not_eq_true hp
      · simp only [hp, Bool.false_eq_true, if_neg, reduceIte] at h
        exact ih h y hlt (by omega)

theorem head?_filter_range'_some {p : Nat → Bool} {s c x : Nat}
    (h : ((List.range' s c).filter p).head? = some x) :
    p x = true ∧ s ≤ x ∧ x < s + c ∧
      ∀ y, s ≤ y → y < x → p y = false := by
  induction c generalizing s with
  | zero => simp at h
  | succ c ih =>
    rw [List.range'_succ, List.filter_cons] at h
    by_cases hp : p s
    · simp only [hp, if_pos, reduceIte, List.head?_cons, Option.some.injEq] at h
      subst h
      exact ⟨hp, Nat.le_refl _, by omega, fun y h₁ h₂ => by omega⟩
    · simp only [hp, Bool.false_eq_true, if_neg, reduceIte] at h
      obtain ⟨hx, h₁, h₂, hmin⟩ := ih h
      refine ⟨hx, by omega, by omega, fun y hy₁ hy₂ => ?_⟩
      rcases Nat.eq_or_lt_of_le hy₁ with rfl | hlt
      · exact Bool.of_not_eq_true hp
      · exact hmin y hlt hy₂

theorem find_from_none {a nd : List Char} {start : Nat}
    (h : find_from a nd start = none) :
    ∀ s, start ≤ s → s + nd.length ≤ a.length →
      (a.drop s).take nd.length ≠ nd := by
  intro s h₁ h₂ heq
  have := head?_filter_range'_none h s h₁ (by omega)
  rw [heq] at this
  simp at this

theorem find_from_some {a nd : List Char} {start s : Nat}
    (h : find_from a nd start = some s) :
    start ≤ s ∧ s + nd.length ≤ a.length ∧
      (a.drop s).take nd.length = nd ∧
      ∀ s', start ≤ s' → s' < s → (a.drop s').take nd.length ≠ nd := by
  obtain ⟨hx, h₁, h₂, hmin⟩ := head?_filter_range'_some h
  refine ⟨h₁, by omega, by simpa using hx, fun s' hs₁ hs₂ heq => ?_⟩
  have := hmin s' hs₁ hs₂
  rw [heq] at this
  simp at this

theorem overlap_loop_of_no_hit (a b : List Char) (m : Nat) :
    ∀ fuel start, (∀ s, start ≤ s → ¬ overlapHit a b m s) →
      overlap_loop a b m fuel start = 0 := by
  intro fuel
  induction fuel with
  | zero => intro start _; rfl
  | succ fuel ih =>
    intro start hno
    unfold overlap_loop
    cases hf : find_from a (b.take m) start with
    | none => rfl
    | some s =>
      obtain ⟨h₁, h₂, h₃, _⟩ := find_from_some hf
      have hnp : ((a.drop s).isPrefixOf b) = false := by
        by_contra hb
        have hpre : (a.drop s) <+: b :=
          List.isPrefixOf_iff_prefix.mp (Bool.of_not_eq_false hb)
        exact hno s h₁ ⟨h₂, h₃, hpre⟩
      show (if (a.drop s).isPrefixOf b = true then a.length - s
        else overlap_loop a b m fuel (s + 1)) = 0
      rw [hnp]
      simp only [Bool.false_eq_true, if_neg, reduceIte]
      exact ih (s + 1) (fun s' hs' => hno s' (by omega))

theorem overlap_loop_of_hit (a b : List Char) (m : Nat) :
    ∀ fuel start s, a.length + 1 - start ≤ fuel → start ≤ s →
      overlapHit a b m s →
      (∀ s', start ≤ s' → s' < s → ¬ overlapHit a b m s') →
      overlap_loop a b m fuel start = a.length - s := by
  intro fuel
  induction fuel with
  | zero =>
    intro start s hfuel hs hhit _
    exact absurd hhit.1 (by omega)
  | succ fuel ih =>
    intro start s hfuel hs hhit hmin
    unfold overlap_loop
    cases hf : find_from a (b.take m) start with
    | none => exact absurd hhit.2.1 (find_from_none hf s hs hhit.1)
    | some s₀ =>
      obtain ⟨h₁, h₂, h₃, hminf⟩ := find_from_some hf
      have hs₀s : s₀ ≤ s := by
        by_contra hgt
        exact hminf s hs (by omega) hhit.2.1
      show (if (a.drop s₀).isPrefixOf b = true then a.length - s₀
        else overlap_loop a b m fuel (s₀ + 1)) = a.length - s
      by_cases hp : (a.drop s₀).isPrefixOf b
      · rw [hp]
        simp only [if_pos, reduceIte]
        have hhit₀ : overlapHit a b m s₀ :=
          ⟨h₂, h₃, List.isPrefixOf_iff_prefix.mp hp⟩
        have : s ≤ s₀ := by
          by_contra hgt
          exact hmin s₀ h₁ (by omega) hhit₀
        have : s₀ = s := by omega
        rw [this]
      · have hne : s₀ ≠ s := by
          intro heq
          subst heq
          exact hp (List.isPrefixOf_iff_prefix.mpr hhit.2.2)
        rw [Bool.not_eq_true] at hp
        rw [hp]
        simp only [Bool.false_eq_true, if_neg, reduceIte]
        exact ih (s₀ + 1) s (by omega) (by omega)
          hhit (fun s' hs₁ hs₂ => hmin s' (by omega) hs₂)

end OverlapLemmas

section LongestSuffixLemmas

theorem le_foldr_max {l : List Nat} {x : Nat} (h : x ∈ l) :
    x ≤ l.foldr max 0 := by
  induction l with
  | nil => simp at h
  | cons a l ih =>
    rcases List.mem_cons.mp h with rfl | h'
    · exact le_max_left _ _
    · exact le_trans (ih h') (le_max_right _ _)

theorem foldr_max_mem {l : List Nat} :
    l.foldr max 0 ∈ l ∨ l.foldr max 0 = 0 := by
  induction l with
  | nil => exact Or.inr rfl
  | cons a l ih =>
    rcases Nat.le_total (l.foldr max 0) a with hle | hle
    · rw [List.foldr_cons, max_eq_left hle]
      exact Or.inl (List.mem_cons_self _ _)
    · rw [List.foldr_cons, max_eq_right hle]
      rcases ih with hmem | hzero
      · exact Or.inl (List.mem_cons_of_mem _ hmem)
      · exact Or.inr hzero

theorem longestSuffixPrefixLen_le (a b : List Char) :
    longestSuffixPrefixLen a b ≤ a.length := by
  rcases @foldr_max_mem ((List.range (a.length + 1)).filter
      (fun o => (a.drop (a.length - o)).isPrefixOf b)) with hmem | hzero
  · have h₁ := (List.mem_filter.mp hmem).1
    have h₂ := List.mem_range.mp h₁
    unfold longestSuffixPrefixLen
    omega
  · unfold longestSuffixPrefixLen
    omega

theorem longestSuffixPrefixLen_prefix (a b : List Char) :
    (a.drop (a.length - longestSuffixPrefixLen a b)) <+: b := by
  rcases @foldr_max_mem ((List.range (a.length + 1)).filter
      (fun o => (a.drop (a.length - o)).isPrefixOf b)) with hmem | hzero
  · have hpred := List.of_mem_filter hmem
    unfold longestSuffixPrefixLen
    exact List.isPrefixOf_iff_prefix.mp hpred
  · show (a.drop (a.length - longestSuffixPrefixLen a b)) <+: b
    unfold longestSuffixPrefixLen
    rw [hzero]
    simp [List.drop_length]

theorem le_longestSuffixPrefixLen (a b : List Char) (o : Nat)
    (h₁ : o ≤ a.length) (h₂ : (a.drop (a.length - o)) <+: b) :
    o ≤ longestSuffixPrefixLen a b := by
  apply le_foldr_max
  rw [List.mem_filter]
  exact ⟨List.mem_range.mpr (by omega), List.isPrefixOf_iff_prefix.mpr h₂⟩

theorem take_eq_of_prefix_le {l b : List Char} {m : Nat}
    (h : l <+: b) (hm : m ≤ l.length) : l.take m = b.take m := by
  obtain ⟨r, rfl⟩ := h
  exact (List.take_append_of_le_length hm).symm

end LongestSuffixLemmas

/-- C5 (amended): provided `min_length ≤ len(b)`, `overlap(a, b,
min_length)` returns the length of the longest suffix of `a` that is a
prefix of `b` when that length is at least `min_length`, and 0 otherwise.
Without `min_length ≤ len(b)` the claim fails (see the counterexample:
the code can return a positive value smaller than `min_length`). -/
theorem overlap_spec (a b : List Char) (m : Nat) (hm : m ≤ b.length) :
    overlap a b m =
      if m ≤ longestSuffixPrefixLen a b then longestSuffixPrefixLen a b
      else 0 := by
  have hnd : (b.take m).length = m := by rw [List.length_take]; omega
  have hLle := longestSuffixPrefixLen_le a b
  have hLpre := longestSuffixPrefixLen_prefix a b
  by_cases hcase : m ≤ longestSuffixPrefixLen a b
  · rw [if_pos hcase]
    unfold overlap
    have hdroplen :
        (a.drop (a.length - longestSuffixPrefixLen a b)).length =
          longestSuffixPrefixLen a b := by
      rw [List.length_drop]; omega
    have hhit : overlapHit a b m (a.length - longestSuffixPrefixLen a b) := by
      refine ⟨by rw [hnd]; omega, ?_, hLpre⟩
      rw [hnd]
      exact take_eq_of_prefix_le hLpre (by rw [hdroplen]; exact hcase)
    have hmin : ∀ s', 0 ≤ s' → s' < a.length - longestSuffixPrefixLen a b →
        ¬ overlapHit a b m s' := by
      rintro s' _ hlt ⟨hfit, _, hpre⟩
      rw [hnd] at hfit
      have ho' : a.length - s' ≤ longestSuffixPrefixLen a b := by
        apply le_longestSuffixPrefixLen a b _ (by omega)
        have heq : a.length - (a.length - s') = s' := by omega
        rw [heq]
        exact hpre
      omega
    rw [overlap_loop_of_hit a b m (a.length + 1) 0
      (a.length - longestSuffixPrefixLen a b) (by omega) (by omega) hhit hmin]
    omega
  · rw [if_neg hcase]
    unfold overlap
    apply overlap_loop_of_no_hit
    rintro s _ ⟨hfit, _, hpre⟩
    rw [hnd] at hfit
    have : a.length - s ≤ longestSuffixPrefixLen a b := by
      apply le_longestSuffixPrefixLen a b _ (by omega)
      have heq : a.length - (a.length - s) = s := by omega
      rw [heq]
      exact hpre
    omega

theorem overlap_spec_witness :
    2 ≤ (['C', 'A', 'A', 'T', 'C', 'C', 'C'] : List Char).length ∧
      overlap ['A', 'T', 'G', 'C', 'A', 'A', 'T']
        ['C', 'A', 'A', 'T', 'C', 'C', 'C'] 2 = 4 :=
  ⟨by decide, by
    rw [overlap_spec ['A', 'T', 'G', 'C', 'A', 'A', 'T']
      ['C', 'A', 'A', 'T', 'C', 'C', 'C'] 2 (by decide)]
    decide⟩

/-- C5 counterexample: with `a = "CAT"`, `b = "T"`, `min_length = 2` the
longest suffix of `a` that is a prefix of `b` has length 1 < 2, so the
claim demands the result 0; the code returns 1, a positive value smaller
than `min_length`. -/
theorem overlap_min_length_counterexample :
    overlap ['C', 'A', 'T'] ['T'] 2 = 1 ∧
      longestSuffixPrefixLen ['C', 'A', 'T'] ['T'] < 2 := by
  decide

section ApproximateMatchingDefs

/-- Modelled from the spec (§4.4): `boyer_moore_exact_matching` (cell 7)
is truncated mid-function in the source (the full-match branch, the
advance of `i` and the `return` are missing) and the `BoyerMoore`
skip-table class it uses lives in a module absent from the snapshot.
Per the spec, the observable output is the ascending sequence of offsets
at which the pattern matches the text exactly; the bad-character /
good-suffix tables only skip alignments that cannot match. -/
def boyer_moore_exact_matching (p t : List Char) : List Nat :=
  (List.range (t.length + 1 - p.length)).filter
    (fun i => (t.drop i).take p.length == p)

/-- Modelled from the spec (§4.2): `Index(text, k)` plus `queryIndex`
from the absent `Index_objects` module.  Building inserts
`text[i:i+k] → i` for every `0 ≤ i ≤ len(text) - k`; querying a piece of
length `k` returns the offsets stored under that key, i.e. exactly the
offsets where the piece occurs verbatim in the text. -/
def queryIndex (piece t : List Char) (k : Nat) : List Nat :=
  (List.range (t.length + 1 - k)).filter
    (fun i => (t.drop i).take k == piece)

/-- Symbols of `l` sampled every `stride` positions starting at index 0
(Python `l[::stride]`). -/
def strided (stride : Nat) : List Char → List Char
  | [] => []
  | c :: rest => c :: strided stride (rest.drop (stride - 1))
termination_by l => l.length
decreasing_by simp only [List.length_drop, List.length_cons]; omega

/-- Modelled from the spec (§4.3): `SubseqIndex(text, k, stride)` plus
`querySubseqIndex` from the absent `Index_objects` module.  Building
inserts, for every offset `i` such that the span `k·stride − stride + 1`
fits in the text, the key made of the `k` symbols
`text[i], text[i+stride], …`; querying strides the pattern piece the
same way and returns the offsets stored under the resulting key. -/
def querySubseqIndex (piece t : List Char) (k stride : Nat) : List Nat :=
  (List.range (t.length + 1 - (k * stride + 1 - stride))).filter
    (fun i => (strided stride (t.drop i)).take k == strided stride piece)

/-- Segment start `i * (len(pattern) // (n + 1))` in
`approximate_matching` (cell 9). -/
def segStart (p : List Char) (n i : Nat) : Nat :=
  i * (p.length / (n + 1))

/-- Segment end `min((i + 1) * segment_len, len(pattern))` in
`approximate_matching` (cell 9). -/
def segEnd (p : List Char) (n i : Nat) : Nat :=
  min ((i + 1) * (p.length / (n + 1))) p.length

/-- The pattern segment `pattern[start:end]` of `approximate_matching`. -/
def segPiece (p : List Char) (n i : Nat) : List Char :=
  (p.drop (segStart p n i)).take (segEnd p n i - segStart p n i)

/-- The per-segment exact-match call of `approximate_matching` (cell 9),
dispatching on the `method` string; the unrecognized-method branch
(which raises in the source before any match is inspected) is handled in
`approximate_matching` below, so it returns the empty list here. -/
def segMatches (p t : List Char) (n : Nat) (method : String) (i : Nat) :
    List Nat :=
  if method = "BoyerMoore" then
    boyer_moore_exact_matching (segPiece p n i) t
  else if method = "SubStringIndex" then
    queryIndex (segPiece p n i) t (segEnd p n i - segStart p n i)
  else if method = "SubSeqIndex" then
    querySubseqIndex (segPiece p n i) t (segEnd p n i - segStart p n i) 3
  else []

/-- The per-segment body of the `for m in matches` loop of
`approximate_matching` (cell 9): keep a raw hit `m` when the implied
alignment `m - start` stays in bounds (`m ≥ start` and
`m - start + len(pattern) ≤ len(text)`) and the mismatches outside the
segment total at most `n` (the `break` once the count exceeds `n` only
short-circuits the count), and record the alignment `m - start`. -/
def segAligns (p t : List Char) (n : Nat) (method : String) (i : Nat) :
    List Nat :=
  ((segMatches p t n method i).filter
    (fun m => decide (segStart p n i ≤ m) &&
      decide (m - segStart p n i + p.length ≤ t.length) &&
      decide (mmRange p t (m - segStart p n i) 0 (segStart p n i) +
        mmRange p t (m - segStart p n i) (segEnd p n i) p.length ≤ n))).map
    (fun m => m - segStart p n i)

/-- The deduplicated set `all_matches` accumulated over the segments
`i = 0 … n` by `approximate_matching` (cell 9); the source collects into
a Python `set` and returns `list(all_matches)` in unspecified order, so
the result is embedded as a `Finset`. -/
def approx_core (p t : List Char) (n : Nat) (method : String) : Finset Nat :=
  (Finset.range (n + 1)).biUnion
    (fun i => (segAligns p t n method i).toFinset)

/-- Cell 9, `approximate_matching(pattern, text, n, method)`.  In the
source the method dispatch sits inside the `for i in range(n + 1)` loop
and `raise Exception('Not a valid method!')` fires on the first
iteration (the loop always runs since `n ≥ 0`), before any match is
accumulated; as the method string is loop-invariant this is equivalent
to checking it once up front, which is how it is written here.  The
`print` of the diagnostic hit counter is not modelled. -/
def approximate_matching (p t : List Char) (n : Nat) (method : String) :
    Except PyExc (Finset Nat) :=
  if method = "BoyerMoore" ∨ method = "SubStringIndex" ∨
      method = "SubSeqIndex" then
    Except.ok (approx_core p t n method)
  else
    Except.error (PyExc.Exception "Not a valid method!")

/-- Classifier for the structured `UnsupportedMethod` error kind named by
the spec (§7): does a call fail with that specific kind? -/
def isUnsupportedMethodError : Except PyExc (Finset Nat) → Bool
  | Except.error (PyExc.UnsupportedMethod _) => true
  | _ => false

end ApproximateMatchingDefs

section PigeonholeLemmas

theorem mmRange_split (p t : List Char) (a : Nat) {lo mid hi : Nat}
    (h₁ : lo ≤ mid) (h₂ : mid ≤ hi) :
    mmRange p t a lo hi = mmRange p t a lo mid + mmRange p t a mid hi := by
  unfold mmRange
  have heq : List.range' lo (mid - lo) ++ List.range' mid (hi - mid) =
      List.range' lo (hi - lo) := by
    have h := List.range'_append lo (mid - lo) (hi - mid) 1
    rw [show lo + 1 * (mid - lo) = mid by omega,
      show hi - mid + (mid - lo) = hi - lo by omega] at h
    exact h
  rw [← heq, List.filter_append, List.length_append]

theorem mmRange_sum (p t : List Char) (a L : Nat) :
    ∀ k, mmRange p t a 0 (k * L) =
      ∑ i ∈ Finset.range k, mmRange p t a (i * L) ((i + 1) * L) := by
  intro k
  induction k with
  | zero =>
    rw [Nat.zero_mul]
    simp [mmRange]
  | succ k ih =>
    rw [Finset.sum_range_succ, ← ih,
      mmRange_split p t a (Nat.zero_le (k * L))
        (Nat.mul_le_mul_right L (Nat.le_succ k))]

theorem exists_zero_of_sum_le {f : Nat → Nat} {n : Nat}
    (h : ∑ i ∈ Finset.range (n + 1), f i ≤ n) :
    ∃ i, i ≤ n ∧ f i = 0 := by
  by_contra h'
  push_neg at h'
  have h1 : ∀ i ∈ Finset.range (n + 1), 1 ≤ f i := by
    intro i hi
    exact Nat.one_le_iff_ne_zero.mpr (h' i (Nat.lt_succ_iff.mp (Finset.mem_range.mp hi)))
  have h2 := Finset.card_nsmul_le_sum (Finset.range (n + 1)) f 1 h1
  have h3 : n + 1 ≤ ∑ i ∈ Finset.range (n + 1), f i := by simpa using h2
  omega

theorem mmRange_zero_pointwise {p t : List Char} {o s e : Nat}
    (hzero : mmRange p t o s e = 0) :
    ∀ j, s ≤ j → j < e → p.getD j ' ' = t.getD (o + j) ' ' := by
  intro j h₁ h₂
  by_contra hne
  have hj : j ∈ List.range' s (e - s) := List.mem_range'_1.mpr ⟨h₁, by omega⟩
  have hmem : j ∈ (List.range' s (e - s)).filter
      (fun j => p.getD j ' ' != t.getD (o + j) ' ') :=
    List.mem_filter.mpr ⟨hj, bne_iff_ne.mpr hne⟩
  unfold mmRange at hzero
  rw [List.length_eq_zero] at hzero
  rw [hzero] at hmem
  simp at hmem

theorem slice_eq_of_mmRange_zero {p t : List Char} {o s e : Nat}
    (hse : s ≤ e) (hep : e ≤ p.length) (hot : o + e ≤ t.length)
    (hzero : mmRange p t o s e = 0) :
    (t.drop (o + s)).take (e - s) = (p.drop s).take (e - s) := by
  have hpt := mmRange_zero_pointwise hzero
  apply List.ext_getElem
  · rw [List.length_take, List.length_drop, List.length_take, List.length_drop]
    omega
  · intro j hj₁ hj₂
    rw [List.length_take, List.length_drop] at hj₁
    have hjp : s + j < p.length := by omega
    have hjt : o + s + j < t.length := by omega
    have := hpt (s + j) (by omega) (by omega)
    rw [show o + (s + j) = o + s + j by omega] at this
    rw [List.getD_eq_getElem p ' ' hjp, List.getD_eq_getElem t ' ' hjt] at this
    rw [List.getElem_take, List.getElem_drop, List.getElem_take,
      List.getElem_drop]
    exact this.symm

end PigeonholeLemmas

section SegmentLemmas

theorem segPiece_length (p : List Char) (n i : Nat) :
    (segPiece p n i).length = segEnd p n i - segStart p n i := by
  unfold segPiece
  rw [List.length_take, List.length_drop]
  have h1 : segEnd p n i ≤ p.length := min_le_right _ _
  omega

/-- Under the spec models of the missing modules, the Boyer-Moore segment
search and the substring-index segment search inspect exactly the same
raw hits: both return every offset where the segment occurs verbatim. -/
theorem segMatches_bm_eq_substring (p t : List Char) (n i : Nat) :
    segMatches p t n "BoyerMoore" i = segMatches p t n "SubStringIndex" i := by
  unfold segMatches
  rw [if_pos rfl, if_neg (by decide), if_pos rfl]
  unfold boyer_moore_exact_matching queryIndex
  simp only [segPiece_length]

theorem approx_core_bm_eq_substring (p t : List Char) (n : Nat) :
    approx_core p t n "BoyerMoore" = approx_core p t n "SubStringIndex" := by
  unfold approx_core
  apply Finset.biUnion_congr rfl
  intro i _
  unfold segAligns
  rw [segMatches_bm_eq_substring p t n i]

end SegmentLemmas

/-- C2: approximate matching with the `BoyerMoore` method and with the
`SubStringIndex` method return the same result (in particular the same
set of alignment offsets) for every pattern, text, and mismatch budget. -/
theorem approximate_matching_bm_eq_index (p t : List Char) (n : Nat) :
    approximate_matching p t n "BoyerMoore" =
      approximate_matching p t n "SubStringIndex" := by
  unfold approximate_matching
  rw [if_pos (Or.inl rfl), if_pos (Or.inr (Or.inl rfl))]
  exact congrArg Except.ok (approx_core_bm_eq_substring p t n)

/-- C1 (amended): pigeonhole soundness for the `BoyerMoore` and
`SubStringIndex` methods: whenever the pattern aligns inside the text at
offset `o` with exactly `n` mismatches, `approximate_matching` with
budget `n` succeeds and its result contains `o`.  For the `SubSeqIndex`
method the original claim fails (see the counterexample). -/
theorem approximate_matching_pigeonhole (p t : List Char) (n o : Nat)
    (method : String)
    (hmethod : method = "BoyerMoore" ∨ method = "SubStringIndex")
    (halign : o + p.length ≤ t.length)
    (hmm : countMM p t o = n) :
    approximate_matching p t n method =
        Except.ok (approx_core p t n method) ∧
      o ∈ approx_core p t n method := by
  have hok : approximate_matching p t n method =
      Except.ok (approx_core p t n method) := by
    unfold approximate_matching
    rcases hmethod with rfl | rfl
    · rw [if_pos (Or.inl rfl)]
    · rw [if_pos (Or.inr (Or.inl rfl))]
  refine ⟨hok, ?_⟩
  have hmain : o ∈ approx_core p t n "SubStringIndex" := by
    have hnL : (n + 1) * (p.length / (n + 1)) ≤ p.length := by
      rw [Nat.mul_comm]
      exact Nat.div_mul_le_self p.length (n + 1)
    have hsum : ∑ i ∈ Finset.range (n + 1),
        mmRange p t o (i * (p.length / (n + 1)))
          ((i + 1) * (p.length / (n + 1))) ≤ n := by
      rw [← mmRange_sum p t o (p.length / (n + 1)) (n + 1)]
      have hsplit := mmRange_split p t o
        (Nat.zero_le ((n + 1) * (p.length / (n + 1)))) hnL
      unfold countMM at hmm
      omega
    obtain ⟨i, hin, hzero⟩ := exists_zero_of_sum_le hsum
    have hiL : (i + 1) * (p.length / (n + 1)) ≤ p.length :=
      le_trans (Nat.mul_le_mul_right _ (by omega)) hnL
    have hE : segEnd p n i = (i + 1) * (p.length / (n + 1)) :=
      min_eq_left hiL
    have hS : segStart p n i = i * (p.length / (n + 1)) := rfl
    have hsle : segStart p n i ≤ segEnd p n i := by
      rw [hE, hS]
      exact Nat.mul_le_mul_right _ (by omega)
    have hep : segEnd p n i ≤ p.length := min_le_right _ _
    have hoe : o + segEnd p n i ≤ t.length := by omega
    have hzero' : mmRange p t o (segStart p n i) (segEnd p n i) = 0 := by
      rw [hS, hE]
      exact hzero
    unfold approx_core
    rw [Finset.mem_biUnion]
    refine ⟨i, Finset.mem_range.mpr (by omega), ?_⟩
    rw [List.mem_toFinset]
    unfold segAligns
    rw [List.mem_map]
    refine ⟨o + segStart p n i, ?_, by omega⟩
    rw [List.mem_filter]
    constructor
    · unfold segMatches
      rw [if_neg (by decide), if_pos rfl]
      unfold queryIndex
      rw [List.mem_filter]
      refine ⟨List.mem_range.mpr (by omega), ?_⟩
      have hslice := slice_eq_of_mmRange_zero hsle hep hoe hzero'
      unfold segPiece
      exact beq_iff_eq.mpr hslice
    · simp only [Bool.and_eq_true, decide_eq_true_eq]
      have hcancel : o + segStart p n i - segStart p n i = o := by
        omega
      refine ⟨⟨by omega, ?_⟩, ?_⟩
      · rw [hcancel]
        exact halign
      · rw [hcancel]
        have h1 := mmRange_split p t o (Nat.zero_le (segStart p n i))
          (le_trans hsle hep)
        have h2 := mmRange_split p t o hsle hep
        unfold countMM at hmm
        omega
  rcases hmethod with rfl | rfl
  · rw [approx_core_bm_eq_substring]
    exact hmain
  · exact hmain

theorem approximate_matching_pigeonhole_witness :
    (0 + (['A', 'C', 'G', 'T'] : List Char).length ≤
        (['A', 'G', 'G', 'T'] : List Char).length) ∧
      countMM ['A', 'C', 'G', 'T'] ['A', 'G', 'G', 'T'] 0 = 1 ∧
      (approximate_matching ['A', 'C', 'G', 'T'] ['A', 'G', 'G', 'T'] 1
          "SubStringIndex" =
        Except.ok (approx_core ['A', 'C', 'G', 'T'] ['A', 'G', 'G', 'T'] 1
          "SubStringIndex") ∧
        0 ∈ approx_core ['A', 'C', 'G', 'T'] ['A', 'G', 'G', 'T'] 1
          "SubStringIndex") :=
  ⟨by decide, by decide,
    approximate_matching_pigeonhole ['A', 'C', 'G', 'T']
      ['A', 'G', 'G', 'T'] 1 0 "SubStringIndex" (Or.inr rfl) (by decide)
      (by decide)⟩

/-- C1 counterexample: the pattern `"AC"` aligns with the text `"AC"` at
offset 0 with exactly 0 mismatches, yet the `SubSeqIndex` method returns
the empty set: the one segment has length `k = 2`, and the subsequence
index with stride 3 only stores keys whose span `3k − 2 = 4` fits in the
2-character text, so the segment query inspects no offsets at all and
the true alignment is missed. -/
theorem approximate_matching_subseq_counterexample :
    countMM ['A', 'C'] ['A', 'C'] 0 = 0 ∧
      0 + (['A', 'C'] : List Char).length ≤ (['A', 'C'] : List Char).length ∧
      approximate_matching ['A', 'C'] ['A', 'C'] 0 "SubSeqIndex" =
        Except.ok (approx_core ['A', 'C'] ['A', 'C'] 0 "SubSeqIndex") ∧
      approx_core ['A', 'C'] ['A', 'C'] 0 "SubSeqIndex" = ∅ :=
  ⟨by decide, by decide, by rfl, by decide⟩

/-- C6 (amended): calling `approximate_matching` with a method outside
the three recognized names raises Python's generic
`Exception('Not a valid method!')` — not a structured
`UnsupportedMethod` error — and yields no partial result. -/
theorem approximate_matching_invalid_method (p t : List Char) (n : Nat)
    (method : String)
    (h : ¬(method = "BoyerMoore" ∨ method = "SubStringIndex" ∨
      method = "SubSeqIndex")) :
    approximate_matching p t n method =
      Except.error (PyExc.Exception "Not a valid method!") := by
  unfold approximate_matching
  rw [if_neg h]

theorem approximate_matching_invalid_method_witness :
    ¬("Foo" = "BoyerMoore" ∨ "Foo" = "SubStringIndex" ∨
        "Foo" = "SubSeqIndex") ∧
      approximate_matching ['A'] ['A'] 0 "Foo" =
        Except.error (PyExc.Exception "Not a valid method!") :=
  ⟨by decide,
    approximate_matching_invalid_method ['A'] ['A'] 0 "Foo" (by decide)⟩

/-- C6 counterexample: on an unrecognized method the code raises the
generic `Exception` kind with message `'Not a valid method!'`; the
result is not the structured `UnsupportedMethod` error kind the claim
requires, so the error is not distinguishable from any other generic
`Exception` failure. -/
theorem approximate_matching_invalid_method_counterexample :
    approximate_matching ['A'] ['A'] 0 "Foo" =
        Except.error (PyExc.Exception "Not a valid method!") ∧
      isUnsupportedMethodError (approximate_matching ['A'] ['A'] 0 "Foo") =
        false := by
  constructor
  · rfl
  · rfl

section EditDistanceDefs

/-- Cell 11, `editDist_xy(x, y)`: the Levenshtein DP matrix with
`D[i][0] = i`, `D[0][j] = j` and
`D[i][j] = min(D[i][j-1] + 1, min(D[i-1][j] + 1, D[i-1][j-1] + (x[i-1] != y[j-1])))`.
The iterative fill is embedded as the recurrence itself; the structural
`fuel` argument bounds `i + j` (every recursive call strictly decreases
it, and the entry points supply `|x| + |y|`, which always suffices), so
the `fuel = 0` catch-all branch is unreachable. -/
def levD (x y : List Char) : Nat → Nat → Nat → Nat
  | _, 0, j => j
  | _, i + 1, 0 => i + 1
  | 0, _ + 1, _ + 1 => 0
  | f + 1, i + 1, j + 1 =>
    min (levD x y f (i + 1) j + 1)
      (min (levD x y f i (j + 1) + 1)
        (levD x y f i j + if x.getD i ' ' == y.getD j ' ' then 0 else 1))

/-- Cell 11, `editDist_xy(x, y)`: value `D[|x|][|y|]` of the matrix. -/
def editDist_xy (x y : List Char) : Nat :=
  levD x y (x.length + y.length) x.length y.length

/-- Cell 11, the matrix of `editDist_min(p, t)`: same recurrence as
`levD` but with the whole first row set to 0 (`D[0][j] = 0`), so a match
may start at any offset of `t`; `D[i][0] = i` is unchanged for `i ≥ 1`
(the source also writes `D[0][0]` twice, as 0 both times). -/
def levDmin (p t : List Char) : Nat → Nat → Nat → Nat
  | _, 0, _ => 0
  | _, i + 1, 0 => i + 1
  | 0, _ + 1, _ + 1 => 0
  | f + 1, i + 1, j + 1 =>
    min (levDmin p t f (i + 1) j + 1)
      (min (levDmin p t f i (j + 1) + 1)
        (levDmin p t f i j + if p.getD i ' ' == t.getD j ' ' then 0 else 1))

/-- Python's `min` over a non-empty list (the `[]` case, returning 0, is
unreachable from `editDist_min`: the bottom row has `|t| + 1 ≥ 1`
entries). -/
def listMin : List Nat → Nat
  | [] => 0
  | x :: xs => xs.foldl min x

/-- Cell 11, `editDist_min(p, t)`: minimum of the bottom row
`D[|p|][0 … |t|]` of the zero-first-row matrix. -/
def editDist_min (p t : List Char) : Nat :=
  listMin ((List.range (t.length + 1)).map
    (fun j => levDmin p t (p.length + t.length) p.length j))

end EditDistanceDefs

section EditDistanceLemmas

theorem levDmin_le_levD (x y : List Char) :
    ∀ f i j, i + j ≤ f → levDmin x y f i j ≤ levD x y f i j := by
  intro f
  induction f with
  | zero =>
    intro i j h
    match i, j with
    | 0, j => exact Nat.zero_le j
    | i + 1, 0 => exact Nat.le_refl _
    | i + 1, j + 1 => omega
  | succ f ih =>
    intro i j h
    match i, j with
    | 0, j => exact Nat.zero_le j
    | i + 1, 0 => exact Nat.le_refl _
    | i + 1, j + 1 =>
      have h1 := ih (i + 1) j (by omega)
      have h2 := ih i (j + 1) (by omega)
      have h3 := ih i j (by omega)
      exact min_le_min (Nat.add_le_add_right h1 1)
        (min_le_min (Nat.add_le_add_right h2 1)
          (Nat.add_le_add_right h3 _))

theorem foldl_min_le_acc {l : List Nat} : ∀ acc : Nat, l.foldl min acc ≤ acc := by
  induction l with
  | nil => intro acc; exact Nat.le_refl _
  | cons a l ih =>
    intro acc
    exact le_trans (ih (min acc a)) (min_le_left _ _)

theorem foldl_min_le {l : List Nat} {x : Nat} (h : x ∈ l) :
    ∀ acc : Nat, l.foldl min acc ≤ x := by
  induction l with
  | nil => simp at h
  | cons a l ih =>
    intro acc
    rcases List.mem_cons.mp h with rfl | h'
    · exact le_trans (foldl_min_le_acc (min acc x)) (min_le_right _ _)
    · exact ih h' (min acc a)

theorem listMin_le {l : List Nat} {x : Nat} (h : x ∈ l) : listMin l ≤ x := by
  cases l with
  | nil => simp at h
  | cons a xs =>
    rcases List.mem_cons.mp h with rfl | h'
    · exact foldl_min_le_acc _
    · exact foldl_min_le h' _

end EditDistanceLemmas

/-- C8: the best-placement edit distance of a pattern in a text is
bounded by the plain edit distance between them whenever the text is at
least as long as the pattern (the zero first row only lowers matrix
entries, and the minimum over the bottom row is at most its last entry). -/
theorem editDist_min_le_editDist_xy (p t : List Char)
    (_h : p.length ≤ t.length) :
    editDist_min p t ≤ editDist_xy p t := by
  unfold editDist_min editDist_xy
  have hmem : levDmin p t (p.length + t.length) p.length t.length ∈
      (List.range (t.length + 1)).map
        (fun j => levDmin p t (p.length + t.length) p.length j) :=
    List.mem_map.mpr ⟨t.length, List.mem_range.mpr (by omega), rfl⟩
  exact le_trans (listMin_le hmem)
    (levDmin_le_levD p t (p.length + t.length) p.length t.length
      (Nat.le_refl _))

theorem editDist_min_le_editDist_xy_witness :
    (['A'] : List Char).length ≤ (['A', 'G'] : List Char).length ∧
      editDist_min ['A'] ['A', 'G'] ≤ editDist_xy ['A'] ['A', 'G'] ∧
      editDist_min ['A'] ['A', 'G'] = 0 ∧ editDist_xy ['A'] ['A', 'G'] = 1 :=
  ⟨by decide, editDist_min_le_editDist_xy ['A'] ['A', 'G'] (by decide),
    by decide, by decide⟩

section AssemblyDefs

/-- Cell 13, `get_kmers(read, k)`: all contiguous length-`k` substrings
of a read, left to right. -/
def get_kmers (read : List Char) (k : Nat) : List (List Char) :=
  (List.range (read.length + 1 - k)).map (fun i => (read.drop i).take k)

/-- One insertion into the dict of the `index` class (cell 13,
`add_read`): bucket the read under the k-mer key.  Python dict keys keep
insertion order; the bucket is a Python `set`, whose iteration order is
implementation-defined, so it is embedded as an insertion-ordered
duplicate-free list (the theorems about the assembler are stated so as
to be robust to this determinization). -/
def dctAdd (d : List (List Char × List (List Char))) (key read : List Char) :
    List (List Char × List (List Char)) :=
  match d with
  | [] => [(key, [read])]
  | (k', v) :: rest =>
    if k' == key then
      (k', if read ∈ v then v else v ++ [read]) :: rest
    else
      (k', v) :: dctAdd rest key read

/-- Cell 13, `index.add_read(read, k)`: insert the read under each of its
k-mers. -/
def add_read (d : List (List Char × List (List Char))) (read : List Char)
    (k : Nat) : List (List Char × List (List Char)) :=
  (get_kmers read k).foldl (fun d kmer => dctAdd d kmer read) d

/-- The dict of the `index` object built by `pick_max_overlap_index`
(cell 13): every read added in order. -/
def buildKmerDict (reads : List (List Char)) (k : Nat) :
    List (List Char × List (List Char)) :=
  reads.foldl (fun d r => add_read d r k) []

/-- The dict lookup `kmer_dct[read_suffix]` (cell 13): the bucket stored
under the key, or `none` where Python raises `KeyError` (possible only
when some read in the pool is shorter than `k`, or `k = 0`, since a
read of length ≥ k contributes its own k-suffix as a key). -/
def dctFind (d : List (List Char × List (List Char))) (key : List Char) :
    Option (List (List Char)) :=
  (d.find? (fun e => e.1 == key)).map (fun e => e.2)

/-- Python `read[-k:]` for `k > 0` (the k-suffix); `read[-0:]` is
`read[0:]`, the whole read. -/
def lastK (read : List Char) (k : Nat) : List Char :=
  if k = 0 then read else read.drop (read.length - k)

/-- Cell 13, `pick_max_overlap_index(reads, k)`: build the k-mer dict,
then for each read in order look up the bucket of its k-suffix — a
missing key raises `KeyError` there and then, discarding the best pair
found so far — and keep the pair with the strictly largest
`overlap(read, matched_read, k)` (the source computes `olen` once per
candidate and tests `olen > best_olen`); `(None, 0)` results when no
candidate pair has positive overlap. -/
def pick_max_overlap_index (reads : List (List Char)) (k : Nat) :
    Except PyExc (Option (List Char × List Char) × Nat) :=
  reads.foldlM
    (fun acc read =>
      match dctFind (buildKmerDict reads k) (lastK read k) with
      | none => Except.error (PyExc.KeyError (String.mk (lastK read k)))
      | some cands =>
        Except.ok (cands.foldl
          (fun acc b =>
            if b ≠ read then
              if acc.2 < overlap read b k then
                (some (read, b), overlap read b k)
              else acc
            else acc)
          acc))
    (none, 0)

/-- The merge loop of `greedy_scs_using_index` (cell 13), returning the
pool left in the caller's mutated list when the call exits, together
with the call's outcome: pick the best pair; a `KeyError` from the pick
propagates, leaving the pool as it stood at that iteration; while the
best overlap is positive, remove both reads from the pool (first
occurrences, as Python `list.remove`), append the merged read
`reada + readb[olen:]` and repeat; otherwise return `''.join(reads)`
over the current pool.  Each positive step removes two pool members and
adds one, so `reads.length` iterations always suffice before the loop
must stop; the structural `fuel` argument carries that bound (its zero
branch is unreachable from the entry points below). -/
def greedy_run (k : Nat) : Nat → List (List Char) →
    List (List Char) × Except PyExc (List Char)
  | 0, reads => (reads, Except.ok reads.flatten)
  | fuel + 1, reads =>
    match pick_max_overlap_index reads k with
    | Except.error e => (reads, Except.error e)
    | Except.ok (some (a, b), olen) =>
      if 0 < olen then
        greedy_run k fuel ((reads.erase a).erase b ++ [a ++ b.drop olen])
      else (reads, Except.ok reads.flatten)
    | Except.ok (none, _) => (reads, Except.ok reads.flatten)

/-- Cell 13, `greedy_scs_using_index(reads, k)`: the returned
superstring `''.join(reads)` over the final pool, or the propagated
`KeyError` of a failed bucket lookup. -/
def greedy_scs_using_index (reads : List (List Char)) (k : Nat) :
    Except PyExc (List Char) :=
  (greedy_run k reads.length reads).2

/-- The contents of the caller's read list when
`greedy_scs_using_index(reads, k)` exits (normally or by exception):
the Python function mutates the caller's list in place via
`reads.remove` / `reads.append`, so this — not necessarily the original
read list — is what the caller's variable holds afterwards. -/
def greedy_final_reads (reads : List (List Char)) (k : Nat) :
    List (List Char) :=
  (greedy_run k reads.length reads).1

end AssemblyDefs

section AssemblyLemmas

theorem foldl_invariant {α β : Type _} (P : β → Prop) (f : β → α → β) :
    ∀ (l : List α) (acc : β), P acc →
      (∀ b x, x ∈ l → P b → P (f b x)) → P (l.foldl f acc) := by
  intro l
  induction l with
  | nil => intro acc h _; exact h
  | cons a l ih =>
    intro acc h hf
    exact ih (f acc a) (hf acc a (List.mem_cons_self a l) h)
      (fun b x hx => hf b x (List.mem_cons_of_mem a hx))

theorem mem_dctAdd_values
    {d : List (List Char × List (List Char))} {key read : List Char}
    {e : List Char × List (List Char)} {x : List Char} :
    e ∈ dctAdd d key read → x ∈ e.2 →
      (∃ e' ∈ d, x ∈ e'.2) ∨ x = read := by
  induction d with
  | nil =>
    intro he hx
    rw [dctAdd] at he
    rcases List.mem_singleton.mp he with rfl
    right
    simpa using hx
  | cons hd rest ih =>
    intro he hx
    obtain ⟨k', v⟩ := hd
    rw [dctAdd] at he
    by_cases hk : (k' == key) = true
    · rw [if_pos hk] at he
      rcases List.mem_cons.mp he with rfl | htail
      · by_cases hrv : read ∈ v
        · rw [if_pos hrv] at hx
          exact Or.inl ⟨(k', v), List.mem_cons_self _ _, hx⟩
        · rw [if_neg hrv] at hx
          rcases List.mem_append.mp hx with hv | hr
          · exact Or.inl ⟨(k', v), List.mem_cons_self _ _, hv⟩
          · exact Or.inr (List.mem_singleton.mp hr)
      · exact Or.inl ⟨e, List.mem_cons_of_mem _ htail, hx⟩
    · rw [if_neg hk] at he
      rcases List.mem_cons.mp he with rfl | htail
      · exact Or.inl ⟨(k', v), List.mem_cons_self _ _, hx⟩
      · rcases ih htail hx with ⟨e', he', hx'⟩ | hr
        · exact Or.inl ⟨e', List.mem_cons_of_mem _ he', hx'⟩
        · exact Or.inr hr

theorem mem_add_read_values
    {read : List Char} {x : List Char} :
    ∀ (kmers : List (List Char)) (d : List (List Char × List (List Char)))
      (e : List Char × List (List Char)),
      e ∈ kmers.foldl (fun d km => dctAdd d km read) d → x ∈ e.2 →
        (∃ e' ∈ d, x ∈ e'.2) ∨ x = read := by
  intro kmers
  induction kmers with
  | nil => intro d e he hx; exact Or.inl ⟨e, he, hx⟩
  | cons km kmers ih =>
    intro d e he hx
    rcases ih (dctAdd d km read) e he hx with ⟨e', he', hx'⟩ | hr
    · exact mem_dctAdd_values he' hx'
    · exact Or.inr hr

theorem mem_buildKmerDict_values
    {k : Nat} {x : List Char} :
    ∀ (reads : List (List Char)) (d : List (List Char × List (List Char)))
      (e : List Char × List (List Char)),
      e ∈ reads.foldl (fun d r => add_read d r k) d → x ∈ e.2 →
        (∃ e' ∈ d, x ∈ e'.2) ∨ x ∈ reads := by
  intro reads
  induction reads with
  | nil => intro d e he hx; exact Or.inl ⟨e, he, hx⟩
  | cons r reads ih =>
    intro d e he hx
    rcases ih (add_read d r k) e he hx with ⟨e', he', hx'⟩ | hr
    · rcases mem_add_read_values (get_kmers r k) d e' he' hx' with hleft | rfl
      · exact Or.inl hleft
      · exact Or.inr (List.mem_cons_self _ _)
    · exact Or.inr (List.mem_cons_of_mem _ hr)

theorem mem_of_mem_dctFind {reads : List (List Char)} {k : Nat}
    {key x : List Char} {cands : List (List Char)}
    (hfind : dctFind (buildKmerDict reads k) key = some cands)
    (hx : x ∈ cands) : x ∈ reads := by
  unfold dctFind at hfind
  cases hf : (buildKmerDict reads k).find? (fun e => e.1 == key) with
  | none => rw [hf] at hfind; simp at hfind
  | some e =>
    rw [hf] at hfind
    rw [Option.map_some', Option.some.injEq] at hfind
    subst hfind
    have he : e ∈ buildKmerDict reads k := List.mem_of_find?_eq_some hf
    unfold buildKmerDict at he
    rcases mem_buildKmerDict_values reads [] e he hx with ⟨e', he', _⟩ | hr
    · simp at he'
    · exact hr

theorem foldlM_except_invariant {α β : Type _} (P : β → Prop)
    (f : β → α → Except PyExc β) :
    ∀ (l : List α) (acc : β), P acc →
      (∀ b x r, x ∈ l → P b → f b x = Except.ok r → P r) →
      ∀ res, l.foldlM f acc = Except.ok res → P res := by
  intro l
  induction l with
  | nil =>
    intro acc hacc _ res h
    rw [List.foldlM_nil] at h
    exact (Except.ok.inj h) ▸ hacc
  | cons a l ih =>
    intro acc hacc hstep res h
    rw [List.foldlM_cons] at h
    cases hf : f acc a with
    | error e =>
      rw [hf] at h
      exact Except.noConfusion h
    | ok acc' =>
      rw [hf] at h
      exact ih acc' (hstep acc a acc' (List.mem_cons_self a l) hacc hf)
        (fun b x r hx => hstep b x r (List.mem_cons_of_mem a hx)) res h

end AssemblyLemmas

section GreedyLemmas

theorem pick_max_overlap_index_pos (reads : List (List Char)) (k : Nat) :
    ∀ res, pick_max_overlap_index reads k = Except.ok res → 0 < res.2 →
      ∃ a b, res.1 = some (a, b) ∧ a ∈ reads ∧ b ∈ reads ∧ a ≠ b := by
  intro res hok
  revert res
  unfold pick_max_overlap_index
  apply foldlM_except_invariant
    (fun acc : Option (List Char × List Char) × Nat =>
      0 < acc.2 → ∃ a b, acc.1 = some (a, b) ∧
        a ∈ reads ∧ b ∈ reads ∧ a ≠ b)
  · intro h
    simp at h
  · intro acc read r hread hP hf
    cases hfind : dctFind (buildKmerDict reads k) (lastK read k) with
    | none =>
      rw [hfind] at hf
      exact Except.noConfusion hf
    | some cands =>
      rw [hfind] at hf
      have hr := Except.ok.inj hf
      subst hr
      apply foldl_invariant
        (fun acc : Option (List Char × List Char) × Nat =>
          0 < acc.2 → ∃ a b, acc.1 = some (a, b) ∧
            a ∈ reads ∧ b ∈ reads ∧ a ≠ b)
      · exact hP
      · intro acc' b hb hP'
        by_cases hbr : b ≠ read
        · rw [if_pos hbr]
          by_cases hlt : acc'.2 < overlap read b k
          · rw [if_pos hlt]
            intro _
            exact ⟨read, b, rfl, hread, mem_of_mem_dctFind hfind hb,
              Ne.symm hbr⟩
          · rw [if_neg hlt]
            exact hP'
        · rw [if_neg hbr]
          exact hP'

theorem pick_pos_mem {reads : List (List Char)} {k : Nat}
    {a b : List Char} {olen : Nat}
    (hok : pick_max_overlap_index reads k = Except.ok (some (a, b), olen))
    (hpos : 0 < olen) : a ∈ reads ∧ b ∈ reads ∧ a ≠ b := by
  obtain ⟨a', b', heq, ha, hb, hne⟩ :=
    pick_max_overlap_index_pos reads k (some (a, b), olen) hok hpos
  have hpair : some (a, b) = some (a', b') := heq
  rw [Option.some.injEq, Prod.mk.injEq] at hpair
  obtain ⟨rfl, rfl⟩ := hpair
  exact ⟨ha, hb, hne⟩

theorem greedy_run_succ_err {reads : List (List Char)} {k fuel : Nat}
    {e : PyExc}
    (hp : pick_max_overlap_index reads k = Except.error e) :
    greedy_run k (fuel + 1) reads = (reads, Except.error e) := by
  show (match pick_max_overlap_index reads k with
    | Except.error e => (reads, Except.error e)
    | Except.ok (some (a, b), olen) =>
      if 0 < olen then
        greedy_run k fuel ((reads.erase a).erase b ++ [a ++ b.drop olen])
      else (reads, Except.ok reads.flatten)
    | Except.ok (none, _) => (reads, Except.ok reads.flatten)) = _
  rw [hp]

theorem greedy_run_succ_pos {reads : List (List Char)} {k fuel olen : Nat}
    {a b : List Char}
    (hp : pick_max_overlap_index reads k = Except.ok (some (a, b), olen))
    (holen : 0 < olen) :
    greedy_run k (fuel + 1) reads =
      greedy_run k fuel ((reads.erase a).erase b ++ [a ++ b.drop olen]) := by
  show (match pick_max_overlap_index reads k with
    | Except.error e => (reads, Except.error e)
    | Except.ok (some (a, b), olen) =>
      if 0 < olen then
        greedy_run k fuel ((reads.erase a).erase b ++ [a ++ b.drop olen])
      else (reads, Except.ok reads.flatten)
    | Except.ok (none, _) => (reads, Except.ok reads.flatten)) = _
  rw [hp]
  show (if 0 < olen then
    greedy_run k fuel ((reads.erase a).erase b ++ [a ++ b.drop olen])
    else (reads, Except.ok reads.flatten)) = _
  rw [if_pos holen]

theorem greedy_run_succ_none {reads : List (List Char)} {k fuel olen : Nat}
    (hp : pick_max_overlap_index reads k = Except.ok (none, olen)) :
    greedy_run k (fuel + 1) reads = (reads, Except.ok reads.flatten) := by
  show (match pick_max_overlap_index reads k with
    | Except.error e => (reads, Except.error e)
    | Except.ok (some (a, b), olen) =>
      if 0 < olen then
        greedy_run k fuel ((reads.erase a).erase b ++ [a ++ b.drop olen])
      else (reads, Except.ok reads.flatten)
    | Except.ok (none, _) => (reads, Except.ok reads.flatten)) = _
  rw [hp]

theorem greedy_run_succ_nopos {reads : List (List Char)} {k fuel olen : Nat}
    {a b : List Char}
    (hp : pick_max_overlap_index reads k = Except.ok (some (a, b), olen))
    (holen : ¬ 0 < olen) :
    greedy_run k (fuel + 1) reads = (reads, Except.ok reads.flatten) := by
  show (match pick_max_overlap_index reads k with
    | Except.error e => (reads, Except.error e)
    | Except.ok (some (a, b), olen) =>
      if 0 < olen then
        greedy_run k fuel ((reads.erase a).erase b ++ [a ++ b.drop olen])
      else (reads, Except.ok reads.flatten)
    | Except.ok (none, _) => (reads, Except.ok reads.flatten)) = _
  rw [hp]
  show (if 0 < olen then
    greedy_run k fuel ((reads.erase a).erase b ++ [a ++ b.drop olen])
    else (reads, Except.ok reads.flatten)) = _
  rw [if_neg holen]

theorem greedy_run_fst_length_le (k : Nat) :
    ∀ fuel reads, (greedy_run k fuel reads).1.length ≤ reads.length := by
  intro fuel
  induction fuel with
  | zero => intro reads; exact Nat.le_refl _
  | succ fuel ih =>
    intro reads
    cases hp : pick_max_overlap_index reads k with
    | error e =>
      rw [greedy_run_succ_err hp]
    | ok res =>
      obtain ⟨fst, snd⟩ := res
      cases fst with
      | none =>
        rw [greedy_run_succ_none hp]
      | some pair =>
        obtain ⟨a, b⟩ := pair
        by_cases holen : 0 < snd
        · obtain ⟨ha, hb, hne⟩ := pick_pos_mem hp holen
          rw [greedy_run_succ_pos hp holen]
          refine le_trans (ih _) ?_
          rw [List.length_append]
          have h1 : (reads.erase a).length = reads.length - 1 :=
            List.length_erase_of_mem ha
          have h2 : b ∈ reads.erase a :=
            (List.mem_erase_of_ne (Ne.symm hne)).mpr hb
          have h3 : ((reads.erase a).erase b).length =
              (reads.erase a).length - 1 :=
            List.length_erase_of_mem h2
          have h4 : 0 < (reads.erase a).length := List.length_pos_of_mem h2
          have h5 : 0 < reads.length := List.length_pos_of_mem ha
          simp only [List.length_singleton]
          omega
        · rw [greedy_run_succ_nopos hp holen]

end GreedyLemmas

/-- The six-read example of cell 20:
`['CAT', 'CTT', 'TGC', 'TGG', 'GAT', 'ATT']`. -/
def readsExample : List (List Char) :=
  [['C', 'A', 'T'], ['C', 'T', 'T'], ['T', 'G', 'C'], ['T', 'G', 'G'],
    ['G', 'A', 'T'], ['A', 'T', 'T']]

/-- C4: greedy assembly of the six-read example with minimum overlap 2
succeeds (every bucket key is present, so no `KeyError` is raised) and
returns a superstring of length 16 that contains each of the six reads
as a contiguous substring. -/
theorem greedy_scs_example :
    ∃ s, greedy_scs_using_index readsExample 2 = Except.ok s ∧
      s.length = 16 ∧
      ['C', 'A', 'T'] <:+: s ∧
      ['C', 'T', 'T'] <:+: s ∧
      ['T', 'G', 'C'] <:+: s ∧
      ['T', 'G', 'G'] <:+: s ∧
      ['G', 'A', 'T'] <:+: s ∧
      ['A', 'T', 'T'] <:+: s :=
  ⟨['C', 'T', 'T', 'T', 'G', 'C', 'T', 'G', 'G', 'G', 'A', 'T', 'C', 'A',
      'T', 'T'],
    by rfl, by decide, by decide, by decide, by decide, by decide,
    by decide, by decide⟩

/-- C7 (amended): `greedy_scs_using_index` mutates the caller's read
list in place: whenever the pick on the initial pool succeeds (raises
no `KeyError`) and reports a positive best overlap, at least one merge
happens, and the list left in the caller's variable when the call
exits — normally or through a later `KeyError` — is not the original
read list. -/
theorem greedy_scs_mutates_reads (reads : List (List Char)) (k : Nat)
    {a b : List Char} {olen : Nat}
    (hpick : pick_max_overlap_index reads k = Except.ok (some (a, b), olen))
    (hpos : 0 < olen) :
    greedy_final_reads reads k ≠ reads := by
  obtain ⟨ha, hb, hne⟩ := pick_pos_mem hpick hpos
  have hlen : 0 < reads.length := List.length_pos_of_mem ha
  obtain ⟨m, hm⟩ : ∃ m, reads.length = m + 1 := ⟨reads.length - 1, by omega⟩
  intro hcontra
  unfold greedy_final_reads at hcontra
  rw [hm, greedy_run_succ_pos hpick hpos] at hcontra
  have hle := greedy_run_fst_length_le k m
    ((reads.erase a).erase b ++ [a ++ b.drop olen])
  have h1 : (reads.erase a).length = reads.length - 1 :=
    List.length_erase_of_mem ha
  have h2 : b ∈ reads.erase a :=
    (List.mem_erase_of_ne (Ne.symm hne)).mpr hb
  have h3 : ((reads.erase a).erase b).length = (reads.erase a).length - 1 :=
    List.length_erase_of_mem h2
  have h4 : 0 < (reads.erase a).length := List.length_pos_of_mem h2
  have hlencontra := congrArg List.length hcontra
  rw [List.length_append, List.length_singleton] at hle
  omega

theorem greedy_scs_mutates_reads_witness :
    pick_max_overlap_index readsExample 2 =
        Except.ok (some (['C', 'A', 'T'], ['A', 'T', 'T']), 2) ∧
      0 < 2 ∧
      greedy_final_reads readsExample 2 ≠ readsExample :=
  ⟨by rfl, by decide,
    greedy_scs_mutates_reads readsExample 2 (by rfl) (by decide)⟩

/-- C7 counterexample: on the six-read example with `k = 2` the pool
left in the caller's list after `greedy_scs_using_index` differs from
the original read list (a merge removed `'CAT'` and `'ATT'` and
appended `'CATT'`), so the input list is not unchanged. -/
theorem greedy_scs_mutates_counterexample :
    greedy_final_reads readsExample 2 ≠ readsExample := by
  decide
